import Mathlib

/-!
githubbot: the issue-labelling webhook handler of `main.go`

The handler registered in `run` (main.go:118-171) reads an issues payload and,
for a newly opened issue without labels, builds `labelsToApply` from two rule
tables (main.go:69-84) and passes it to `client.Issues.AddLabelsToIssue`.

The rule tables are regular expressions handed to Go's `regexp` package.  The
package is not part of the repository, so the development starts with a model
of the three library calls the handler makes (`MatchString`,
`FindStringSubmatch`, `strings.ToLower`), following the package documentation:

  "When matching against text, the regexp returns a match that begins as early
   as possible in the input (leftmost), and among those it chooses the one that
   a backtracking search would have found first."

The handler itself (the tables, the `range` loop, the kind lookup, the guards
on `Action` and `Labels`, the API call) is then transcribed line by line.
-/

namespace Githubbot

/-! ## Go `regexp`: syntax trees -/

/-- Parsed regular expressions, with the operator names of Go's `regexp/syntax`
(`OpEmptyMatch`, `OpLiteral`, `OpAnyCharNotNL`, `OpAnyChar`, `OpCapture`,
`OpStar`, `OpPlus`, `OpConcat`, `OpAlternate`).  The two Perl classes the
tables use, `\s` and `\w`, are separate constructors.  `star` and `plus` carry
a flag that is `false` for the non-greedy forms `*?` and `+?`. -/
inductive Regex
  | emptyMatch
  | literal (s : String)
  | anyCharNotNL
  | anyChar
  | space
  | word
  | capture (i : Nat) (a : Regex)
  | star (greedy : Bool) (a : Regex)
  | plus (greedy : Bool) (a : Regex)
  | concat (a b : Regex)
  | alternate (a b : Regex)
  deriving DecidableEq

/-- Number of capture groups of an expression (`(*Regexp).NumSubexp`). -/
def Regex.NumSubexp : Regex → Nat
  | .capture _ a => a.NumSubexp + 1
  | .star _ a => a.NumSubexp
  | .plus _ a => a.NumSubexp
  | .concat a b => a.NumSubexp + b.NumSubexp
  | .alternate a b => a.NumSubexp + b.NumSubexp
  | _ => 0

/-- Captures recorded so far: group index and captured text, most recent first. -/
abbrev Caps := List (Nat × List Char)

/-- What remains to be matched after a subexpression: it receives the rest of
the input and the captures, and fails with `none`. -/
abbrev Cont := List Char → Caps → Option Caps

/-- The Perl class `\s` of Go's `regexp/syntax`: `[\t\n\f\r ]`. -/
def isSpace (x : Char) : Bool :=
  x == '\t' || x == '\n' || x == Char.ofNat 12 || x == '\r' || x == ' '

/-- The Perl class `\w` of Go's `regexp/syntax`: `[0-9A-Za-z_]`. -/
def isWord (x : Char) : Bool :=
  ('0' ≤ x && x ≤ '9') || ('A' ≤ x && x ≤ 'Z') || x == '_' || ('a' ≤ x && x ≤ 'z')

/-- The class of `.` without flag `s`: every rune but the line feed. -/
def notNL (x : Char) : Bool := x != '\n'

/-- The class of `.` under flag `s`: every rune. -/
def anyRune (_ : Char) : Bool := true

/-! ## Go `regexp`: leftmost-first matching -/

/-- Match a literal rune sequence at the head of the input; the result is the
rest of the input. -/
def matchLiteral : List Char → List Char → Option (List Char)
  | [], s => some s
  | _ :: _, [] => none
  | c :: cs, x :: s => if x = c then matchLiteral cs s else none

/-- Match one rune of a class at the head of the input. -/
def one (p : Char → Bool) (s : List Char) (c : Caps) (k : Cont) : Option Caps :=
  match s with
  | [] => none
  | x :: t => if p x then k t c else none

/-- The repetition of `step`.  A greedy loop tries one more iteration before it
tries to leave, a non-greedy loop the other way round.  An iteration that
consumes nothing is not repeated (it would match the same text again), so every
iteration shortens the input and `n = s.length` iterations always suffice. -/
def loop (step : List Char → Caps → Cont → Option Caps) (greedy : Bool) :
    Nat → List Char → Caps → Cont → Option Caps
  | 0, s, c, k => k s c
  | n + 1, s, c, k =>
    if greedy then
      match step s c (fun t d => if t.length < s.length then loop step greedy n t d k else none) with
      | some r => some r
      | none => k s c
    else
      match k s c with
      | some r => some r
      | none => step s c (fun t d => if t.length < s.length then loop step greedy n t d k else none)

/-- Backtracking search for a match of `re` at the head of `s`, in the priority
order of Go's `regexp`: the first alternative before the second, a greedy
repetition longest first, a non-greedy one shortest first.  The first complete
match found (one on which the continuation succeeds) is the result. -/
def backtrack : Regex → List Char → Caps → Cont → Option Caps
  | .emptyMatch, s, c, k => k s c
  | .literal l, s, c, k =>
    match matchLiteral l.data s with
    | some t => k t c
    | none => none
  | .anyCharNotNL, s, c, k => one notNL s c k
  | .anyChar, s, c, k => one anyRune s c k
  | .space, s, c, k => one isSpace s c k
  | .word, s, c, k => one isWord s c k
  | .capture i a, s, c, k =>
    backtrack a s c (fun t d => k t ((i, s.take (s.length - t.length)) :: d))
  | .star g a, s, c, k => loop (fun s c k => backtrack a s c k) g s.length s c k
  | .plus g a, s, c, k =>
    backtrack a s c (fun t d => loop (fun s c k => backtrack a s c k) g t.length t d k)
  | .concat a b, s, c, k => backtrack a s c (fun t d => backtrack b t d k)
  | .alternate a b, s, c, k =>
    match backtrack a s c k with
    | some r => some r
    | none => backtrack b s c k

/-- A match of `re` that starts at the head of `s`; group 0 is the whole match. -/
def tryAt (re : Regex) (s : List Char) : Option Caps :=
  backtrack re s [] (fun t d => some ((0, s.take (s.length - t.length)) :: d))

/-- The leftmost match: the first start position, from the left, at which
`tryAt` finds a match. -/
def find (re : Regex) : List Char → Option Caps
  | [] => tryAt re []
  | x :: t =>
    match tryAt re (x :: t) with
    | some c => some c
    | none => find re t

/-- Model of `(*Regexp).MatchString`: whether the string contains any match. -/
def MatchString (re : Regex) (s : String) : Bool :=
  (find re s.data).isSome

/-- Model of `(*Regexp).FindStringSubmatch`: the text of the leftmost match and
of its groups, `results[0]` being the whole match and a group that took no part
being `""`; the nil slice (here `[]`) when there is no match. -/
def FindStringSubmatch (re : Regex) (s : String) : List String :=
  match find re s.data with
  | none => []
  | some caps =>
    (List.range (re.NumSubexp + 1)).map (fun i => String.mk ((caps.lookup i).getD []))

/-- Model of `strings.ToLower` on the ASCII range.  The only string the handler
lower-cases is group 1 of `kindpattern`, which consists of `\w` and `\s` runes,
all ASCII (`capture_ascii` below); there the ASCII mapping is the Unicode one. -/
def ToLower (s : String) : String :=
  String.mk (s.data.map Char.toLower)

/-! ## The rule tables (main.go:69-84) -/

/-- The group `(\s+|\n+|)` shared by four of the version patterns. -/
def spacesGroup (i : Nat) : Regex :=
  .capture i (.alternate (.plus true .space)
    (.alternate (.plus true (.literal "\n")) .emptyMatch))

/-- The group `(v|)`. -/
def vGroup (i : Nat) : Regex :=
  .capture i (.alternate (.literal "v") .emptyMatch)

/-- The group `(:|)`. -/
def colonGroup (i : Nat) : Regex :=
  .capture i (.alternate (.literal ":") .emptyMatch)

/-- Pattern `rancher/(server|rancher)(:|)(\s+|\n+|)+(v|)1` (main.go:70). -/
def reServer1 : Regex :=
  .concat (.literal "rancher/")
  (.concat (.capture 1 (.alternate (.literal "server") (.literal "rancher")))
  (.concat (colonGroup 2)
  (.concat (.plus true (spacesGroup 3))
  (.concat (vGroup 4) (.literal "1")))))

/-- Pattern ``\|Versions\|Rancher\s\`v1`` (main.go:71). -/
def reTable1 : Regex :=
  .concat (.literal "|Versions|Rancher") (.concat .space (.literal "`v1"))

/-- Pattern `Rancher\sversion.+:(\s+|\n+|)(v|)1` (main.go:72). -/
def reVersion1 : Regex :=
  .concat (.literal "Rancher")
  (.concat .space
  (.concat (.literal "version")
  (.concat (.plus true .anyCharNotNL)
  (.concat (.literal ":")
  (.concat (spacesGroup 1)
  (.concat (vGroup 2) (.literal "1")))))))

/-- Pattern `(rancher/|)rancher(:|)(\s+|\n+|)+(v|)2` (main.go:73). -/
def reServer2 : Regex :=
  .concat (.capture 1 (.alternate (.literal "rancher/") .emptyMatch))
  (.concat (.literal "rancher")
  (.concat (colonGroup 2)
  (.concat (.plus true (spacesGroup 3))
  (.concat (vGroup 4) (.literal "2")))))

/-- Pattern ``\|Versions\|Rancher\s\`v2`` (main.go:74). -/
def reTable2 : Regex :=
  .concat (.literal "|Versions|Rancher") (.concat .space (.literal "`v2"))

/-- Pattern `Rancher\sversion.+:(\s+|\n+|)(v|)2` (main.go:75). -/
def reVersion2 : Regex :=
  .concat (.literal "Rancher")
  (.concat .space
  (.concat (.literal "version")
  (.concat (.plus true .anyCharNotNL)
  (.concat (.literal ":")
  (.concat (spacesGroup 1)
  (.concat (vGroup 2) (.literal "2")))))))

/-- The map `versionregexes` (main.go:69-76), its six entries in the order of
the source text, each key already compiled (`regexp.MustCompile`, main.go:146). -/
def versionregexes : List (Regex × String) :=
  [ (reServer1, "version/1.6"),
    (reTable1, "version/1.6"),
    (reVersion1, "version/1.6"),
    (reServer2, "version/2.0"),
    (reTable2, "version/2.0"),
    (reVersion2, "version/2.0") ]

/-- The alternation `\w+|\w+\s+\w+` inside the group of the kind pattern. -/
def kindGroup : Regex :=
  .alternate (.plus true .word)
    (.concat (.plus true .word) (.concat (.plus true .space) (.plus true .word)))

/-- The prompt the kind pattern starts with. -/
def kindPrompt : String := "What kind of request is this"

/-- Pattern `What kind of request is this(?s).*?:(?s).*?(\w+|\w+\s+\w+)\r\n`
(main.go:77), compiled (main.go:152).  Both dots stand after `(?s)`, so they
match every rune, the line feed included. -/
def kindpattern : Regex :=
  .concat (.literal kindPrompt)
  (.concat (.star false .anyChar)
  (.concat (.literal ":")
  (.concat (.star false .anyChar)
  (.concat (.capture 1 kindGroup)
  (.literal "\r\n")))))

/-- The map `kinds` (main.go:78-84). -/
def kinds : List (String × String) :=
  [ ("question", "kind/question"),
    ("bug", "kind/bug"),
    ("enhancement", "kind/enhancement"),
    ("feature request", "kind/feature"),
    ("feature", "kind/feature") ]

/-! ## The handler (main.go:118-171) -/

/-- An order in which `range versionregexes` may visit the map: every entry
once.  Go does not specify the order and varies it between loops, so the
handler below takes the order of each walk as an argument. -/
def RangeOrder (order : List (Regex × String)) : Prop :=
  order.Perm versionregexes

/-- The version loop (main.go:144-151): walk the map in the given order and
append the label of every pattern that matches the body. -/
def versionLabels (order : List (Regex × String)) (body : String) : List String :=
  order.foldl (fun labels e => if MatchString e.1 body then labels ++ [e.2] else labels) []

/-- The kind lookup (main.go:156-163): the labels to append after the version
loop, none or one. -/
def kindLabels (body : String) : List String :=
  let results := FindStringSubmatch kindpattern body
  if h : results.length > 1 then
    let kind := ToLower (results.get ⟨1, h⟩)
    match kinds.lookup kind with
    | some val => [val]
    | none => []
  else []

/-- The classification block (main.go:144-163): the value of `labelsToApply`
when the handler reaches the API call. -/
def labelsToApply (order : List (Regex × String)) (body : String) : List String :=
  versionLabels order body ++ kindLabels body

/-- An element of `issue.Labels`. -/
structure Label where
  Name : String

/-- The fields of `issuepayload.Issue` the handler reads. -/
structure Issue where
  Number : Int
  Body : String
  Labels : List Label

/-- The fields of `github.IssuesPayload` the handler reads. -/
structure IssuesPayload where
  Action : String
  Issue : Issue

/-- The value `hook.Parse` returns as `payload`: nil (with an error), an issues
payload, or a payload of another type. -/
inductive Payload
  | nil
  | issues (p : IssuesPayload)
  | other

/-- The arguments of one call of `client.Issues.AddLabelsToIssue` after the
context: owner, repository, issue number, labels. -/
structure AddLabelsCall where
  owner : String
  repo : String
  number : Int
  labels : List String
  deriving DecidableEq

/-- The body of the handler from the type switch on (main.go:128-170): the API
call it makes, or `none` when it leaves (`break`, or no case of the switch)
before the classification block.  `org` and `repo` are `c.String("github-org")`
and `c.String("github-repo")`; `order` is the order of this request's walk over
`versionregexes`.  `issue.Number` is an int64 and `int` has 64 bits on the build
targets, so `int(issue.Number)` is the number itself.  Logging is left out. -/
def handler (org repo : String) (order : List (Regex × String)) :
    Payload → Option AddLabelsCall
  | .issues issuepayload =>
    let issue := issuepayload.Issue
    let body := issue.Body
    if issuepayload.Action != "opened" then none
    else if issue.Labels.length != 0 then none
    else some ⟨org, repo, issue.Number, labelsToApply order body⟩
  | _ => none

/-- The body of the first end-to-end scenario. -/
def scenarioBody : String :=
  "Rancher version: v1\r\nWhat kind of request is this, bug or feature?:\r\nbug\r\n"

/-- The line of the second testable property: the prompt answered with `bug`. -/
def bugLine : String := "What kind of request is this: bug\r\n"

/-- The body used to tell two walks of the version map apart: it matches a
pattern of each version. -/
def bothVersionsBody : String := "rancher/server:v1 rancher2"

/-- A body with a match for each version label and an answered kind prompt. -/
def twiceBody : String :=
  "rancher/server:v1 rancher2\r\nWhat kind of request is this: bug\r\n"

/-- A label of the `kind/` family. -/
def isKindLabel (l : String) : Bool :=
  l.data.take 5 == "kind/".data

/-! ## The language of an expression -/

/-- The language of an expression: the texts it matches, without regard to
priorities or captures. -/
def Matches : Regex → List Char → Prop
  | .emptyMatch, m => m = []
  | .literal l, m => m = l.data
  | .anyCharNotNL, m => ∃ x, m = [x] ∧ notNL x = true
  | .anyChar, m => ∃ x, m = [x] ∧ anyRune x = true
  | .space, m => ∃ x, m = [x] ∧ isSpace x = true
  | .word, m => ∃ x, m = [x] ∧ isWord x = true
  | .capture _ a, m => Matches a m
  | .star _ a, m => ∃ ps : List (List Char), m = ps.flatten ∧ ∀ p ∈ ps, Matches a p
  | .plus _ a, m =>
    ∃ p, ∃ ps : List (List Char), m = p ++ ps.flatten ∧ Matches a p ∧ ∀ q ∈ ps, Matches a q
  | .concat a b, m => ∃ m1 m2, m = m1 ++ m2 ∧ Matches a m1 ∧ Matches b m2
  | .alternate a b, m => Matches a m ∨ Matches b m

/-- A matching step is sound for a language when each of its results is a
result of its continuation on what is left after a text of the language. -/
def Sound (L : List Char → Prop) (step : List Char → Caps → Cont → Option Caps) : Prop :=
  ∀ s c k r, step s c k = some r → ∃ m t d, s = m ++ t ∧ L m ∧ k t d = some r

/-- A continuation whose success does not depend on the captures. -/
def Blind (k : Cont) : Prop := ∀ t d e, (k t d).isSome = (k t e).isSome

/-! ## The version loop -/

lemma foldl_labels (body : String) (order : List (Regex × String)) (acc : List String) :
    order.foldl (fun labels e => if MatchString e.1 body then labels ++ [e.2] else labels) acc
      = acc ++ (order.filter (fun e => MatchString e.1 body)).map Prod.snd := by
  induction order generalizing acc with
  | nil => simp
  | cons e rest ih =>
    by_cases h : MatchString e.1 body = true
    · simp [List.foldl_cons, h, ih]
    · simp [List.foldl_cons, h, ih]

/-- The loop appends the label of each matching entry, in the order of the walk. -/
lemma versionLabels_eq (order : List (Regex × String)) (body : String) :
    versionLabels order body = (order.filter (fun e => MatchString e.1 body)).map Prod.snd := by
  simp [versionLabels, foldl_labels]

lemma versionLabels_perm {o1 o2 : List (Regex × String)} (h : o1.Perm o2) (body : String) :
    (versionLabels o1 body).Perm (versionLabels o2 body) := by
  rw [versionLabels_eq, versionLabels_eq]
  exact (h.filter _).map _

lemma mem_versionLabels {order : List (Regex × String)} {body l : String} :
    l ∈ versionLabels order body ↔ ∃ e ∈ order, MatchString e.1 body = true ∧ e.2 = l := by
  simp [versionLabels_eq, and_assoc]

/-- Every version label is one of the two labels of the table. -/
lemma versionLabels_values {order : List (Regex × String)} (h : RangeOrder order)
    {body l : String} (hl : l ∈ versionLabels order body) :
    l = "version/1.6" ∨ l = "version/2.0" := by
  obtain ⟨e, he, -, rfl⟩ := mem_versionLabels.mp hl
  have : e ∈ versionregexes := h.mem_iff.mp he
  simp [versionregexes] at this
  rcases this with rfl | rfl | rfl | rfl | rfl | rfl <;> simp

lemma versionLabels_not_kind {order : List (Regex × String)} (h : RangeOrder order)
    {body l : String} (hl : l ∈ versionLabels order body) : isKindLabel l = false := by
  rcases versionLabels_values h hl with rfl | rfl <;> decide

lemma versionLabels_nil_of_no_match {order : List (Regex × String)} (h : RangeOrder order)
    {body : String} (hno : ∀ e ∈ versionregexes, MatchString e.1 body = false) :
    versionLabels order body = [] := by
  rw [versionLabels_eq, List.map_eq_nil_iff, List.filter_eq_nil_iff]
  intro e he
  simp [hno e (h.mem_iff.mp he)]

/-- When every matching entry carries the label `L`, the loop output is `L`
repeated, whatever the order of the walk. -/
lemma versionLabels_replicate {order : List (Regex × String)} (h : RangeOrder order)
    {body L : String} (hL : ∀ e ∈ versionregexes, MatchString e.1 body = true → e.2 = L) :
    versionLabels order body
      = List.replicate (versionLabels versionregexes body).length L := by
  rw [List.eq_replicate_iff]
  refine ⟨(versionLabels_perm h body).length_eq, ?_⟩
  intro b hb
  obtain ⟨e, he, hm, rfl⟩ := mem_versionLabels.mp hb
  exact hL e (h.mem_iff.mp he) hm

/-! ## The kind lookup -/

/-- The kind lookup appends at most one label, a value of `kinds`. -/
lemma kindLabels_cases (body : String) :
    kindLabels body = [] ∨ ∃ val, kindLabels body = [val] ∧
      (val = "kind/question" ∨ val = "kind/bug" ∨ val = "kind/enhancement"
        ∨ val = "kind/feature") := by
  unfold kindLabels
  simp only
  split
  · rename_i h
    split
    · rename_i val hval
      right
      refine ⟨val, rfl, ?_⟩
      generalize ToLower _ = k at hval
      simp only [kinds, List.lookup] at hval
      repeat (split at hval; · simp at hval; simp [← hval])
      simp at hval
    · left; rfl
  · left; rfl

lemma kindLabels_not_version (body : String) {l : String} (hl : l ∈ kindLabels body) :
    l ≠ "version/1.6" ∧ l ≠ "version/2.0" := by
  rcases kindLabels_cases body with h | ⟨val, h, hv⟩
  · simp [h] at hl
  · rw [h] at hl
    simp at hl
    subst hl
    rcases hv with rfl | rfl | rfl | rfl <;> decide

lemma kindLabels_isKind (body : String) {l : String} (hl : l ∈ kindLabels body) :
    isKindLabel l = true := by
  rcases kindLabels_cases body with h | ⟨val, h, hv⟩
  · simp [h] at hl
  · rw [h] at hl
    simp at hl
    subst hl
    rcases hv with rfl | rfl | rfl | rfl <;> decide

/-! ## Soundness of the matcher -/

lemma matchLiteral_some {l s t : List Char} (h : matchLiteral l s = some t) : s = l ++ t := by
  induction l generalizing s with
  | nil => simpa [matchLiteral, eq_comm] using h
  | cons c cs ih =>
    cases s with
    | nil => simp [matchLiteral] at h
    | cons x s =>
      simp only [matchLiteral] at h
      split at h
      · rename_i hx
        rw [hx, ih h]; rfl
      · simp at h

lemma matchLiteral_append (l t : List Char) : matchLiteral l (l ++ t) = some t := by
  induction l with
  | nil => rfl
  | cons c cs ih => simp [matchLiteral, ih]

lemma one_sound (p : Char → Bool) :
    Sound (fun m => ∃ x, m = [x] ∧ p x = true) (one p) := by
  intro s c k r h
  cases s with
  | nil => simp [one] at h
  | cons x t =>
    simp only [one] at h
    split at h
    · rename_i hp
      exact ⟨[x], t, c, rfl, ⟨x, rfl, hp⟩, h⟩
    · simp at h

lemma loop_sound {L : List Char → Prop} {step : List Char → Caps → Cont → Option Caps}
    (hs : Sound L step) (g : Bool) (n : Nat) (s : List Char) (c : Caps) (k : Cont) (r : Caps)
    (h : loop step g n s c k = some r) :
    ∃ (ps : List (List Char)) (t : List Char) (d : Caps),
      s = ps.flatten ++ t ∧ (∀ p ∈ ps, L p) ∧ k t d = some r := by
  induction n generalizing s c r with
  | zero => exact ⟨[], s, c, rfl, by simp, h⟩
  | succ n ih =>
    have iter : ∀ r, step s c (fun t d => if t.length < s.length then loop step g n t d k
        else none) = some r →
        ∃ (ps : List (List Char)) (t : List Char) (d : Caps),
          s = ps.flatten ++ t ∧ (∀ p ∈ ps, L p) ∧ k t d = some r := by
      intro r hr
      obtain ⟨m, t, d, rfl, hm, hk⟩ := hs _ _ _ _ hr
      split at hk
      · obtain ⟨ps, t2, d2, rfl, hps, hk2⟩ := ih _ _ _ hk
        refine ⟨m :: ps, t2, d2, by simp, ?_, hk2⟩
        intro p hp
        rcases List.mem_cons.mp hp with rfl | hp
        · exact hm
        · exact hps p hp
      · simp at hk
    simp only [loop] at h
    cases g with
    | true =>
      simp only [if_true] at h
      split at h
      · rename_i r2 hr2
        cases h
        exact iter r hr2
      · exact ⟨[], s, c, rfl, by simp, h⟩
    | false =>
      simp only [Bool.false_eq_true, if_false] at h
      split at h
      · rename_i r2 hr2
        cases h
        exact ⟨[], s, c, rfl, by simp, hr2⟩
      · exact iter r h

/-- Every result of `backtrack` comes from the continuation, after a text of
the language of the expression. -/
theorem backtrack_sound (re : Regex) : Sound (Matches re) (backtrack re) := by
  induction re with
  | emptyMatch =>
    intro s c k r h
    exact ⟨[], s, c, rfl, rfl, h⟩
  | literal l =>
    intro s c k r h
    simp only [backtrack] at h
    split at h
    · rename_i t ht
      exact ⟨l.data, t, c, matchLiteral_some ht, rfl, h⟩
    · simp at h
  | anyCharNotNL => exact one_sound notNL
  | anyChar => exact one_sound anyRune
  | space => exact one_sound isSpace
  | word => exact one_sound isWord
  | capture i a ih =>
    intro s c k r h
    obtain ⟨m, t, d, rfl, hm, hk⟩ := ih _ _ _ _ h
    exact ⟨m, t, _, rfl, hm, hk⟩
  | star g a ih =>
    intro s c k r h
    obtain ⟨ps, t, d, rfl, hps, hk⟩ := loop_sound ih g _ _ _ _ _ h
    exact ⟨ps.flatten, t, d, rfl, ⟨ps, rfl, hps⟩, hk⟩
  | plus g a ih =>
    intro s c k r h
    obtain ⟨m, t, d, rfl, hm, hk⟩ := ih _ _ _ _ h
    obtain ⟨ps, t2, d2, rfl, hps, hk2⟩ := loop_sound ih g _ _ _ _ _ hk
    exact ⟨m ++ ps.flatten, t2, d2, by simp, ⟨m, ps, rfl, hm, hps⟩, hk2⟩
  | concat a b iha ihb =>
    intro s c k r h
    obtain ⟨m1, t, d, rfl, hm1, hk⟩ := iha _ _ _ _ h
    obtain ⟨m2, t2, d2, rfl, hm2, hk2⟩ := ihb _ _ _ _ hk
    exact ⟨m1 ++ m2, t2, d2, by simp, ⟨m1, m2, rfl, hm1, hm2⟩, hk2⟩
  | alternate a b iha ihb =>
    intro s c k r h
    simp only [backtrack] at h
    split at h
    · rename_i r2 hr2
      cases h
      obtain ⟨m, t, d, rfl, hm, hk⟩ := iha _ _ _ _ hr2
      exact ⟨m, t, d, rfl, Or.inl hm, hk⟩
    · obtain ⟨m, t, d, rfl, hm, hk⟩ := ihb _ _ _ _ h
      exact ⟨m, t, d, rfl, Or.inr hm, hk⟩

/-- A step never succeeds on a continuation that always fails. -/
lemma backtrack_fail (re : Regex) (s : List Char) (c : Caps) :
    backtrack re s c (fun _ _ => none) = none := by
  cases h : backtrack re s c (fun _ _ => none) with
  | none => rfl
  | some r =>
    obtain ⟨m, t, d, -, -, hk⟩ := backtrack_sound re _ _ _ _ h
    cases hk

/-- One more unit of fuel changes nothing once the fuel covers the input. -/
lemma loop_fuel_succ (re : Regex) (g : Bool) (k : Cont) (n : Nat) (s : List Char) (c : Caps)
    (hn : s.length ≤ n) :
    loop (fun s c k => backtrack re s c k) g (n + 1) s c k
      = loop (fun s c k => backtrack re s c k) g n s c k := by
  induction n generalizing s c with
  | zero =>
    have hs : s = [] := List.length_eq_zero.mp (Nat.le_zero.mp hn)
    subst hs
    have hnone : ∀ f : Cont, backtrack re [] c
        (fun t d => if t.length < ([] : List Char).length then f t d else none) = none := by
      intro f
      have : (fun (t : List Char) (d : Caps) => if t.length < ([] : List Char).length
          then f t d else none) = fun _ _ => none := by
        funext t d
        simp
      rw [this]
      exact backtrack_fail re [] c
    cases g with
    | true => simp only [loop, if_true, hnone]
    | false =>
      simp only [loop, Bool.false_eq_true, if_false, hnone]
      cases k [] c <;> rfl
  | succ n ih =>
    have hcont : (fun (t : List Char) (d : Caps) => if t.length < s.length
          then loop (fun s c k => backtrack re s c k) g (n + 1) t d k else none)
        = fun t d => if t.length < s.length
          then loop (fun s c k => backtrack re s c k) g n t d k else none := by
      funext t d
      split
      · rename_i ht
        exact ih t d (by omega)
      · rfl
    rw [loop, hcont]
    rfl

/-- The fuel `s.length` given to the loops of `backtrack` is never exhausted:
any larger amount gives the same result. -/
theorem loop_fuel (re : Regex) (g : Bool) (k : Cont) (s : List Char) (c : Caps) (j : Nat) :
    loop (fun s c k => backtrack re s c k) g (s.length + j) s c k
      = loop (fun s c k => backtrack re s c k) g s.length s c k := by
  induction j with
  | zero => rfl
  | succ j ih =>
    rw [← Nat.add_assoc, loop_fuel_succ re g k (s.length + j) s c (by omega), ih]

/-- A match found by the search starts somewhere in the input. -/
lemma find_some {re : Regex} {s : List Char} {r : Caps} (h : find re s = some r) :
    ∃ pre rest, s = pre ++ rest ∧ tryAt re rest = some r := by
  induction s with
  | nil => exact ⟨[], [], rfl, h⟩
  | cons x t ih =>
    simp only [find] at h
    split at h
    · rename_i c hc
      cases h
      exact ⟨[], x :: t, rfl, hc⟩
    · obtain ⟨pre, rest, rfl, hr⟩ := ih h
      exact ⟨x :: pre, rest, rfl, hr⟩

/-- A match at any start position makes the search succeed. -/
lemma find_isSome_of_tryAt {re : Regex} (pre : List Char) {rest : List Char}
    (h : (tryAt re rest).isSome = true) : (find re (pre ++ rest)).isSome = true := by
  induction pre with
  | nil =>
    cases rest with
    | nil => simpa [find] using h
    | cons x t =>
      simp only [List.nil_append, find]
      split
      · rfl
      · rename_i hn
        simp [hn] at h
  | cons x t ih =>
    simp only [List.cons_append, find]
    split
    · rfl
    · exact ih

/-- The search returns the match at the first start position that has one. -/
lemma find_eq_of_leftmost {re : Regex} (pre : List Char) {rest : List Char} {r : Caps}
    (hpre : ∀ a b, pre = a ++ b → b ≠ [] → tryAt re (b ++ rest) = none)
    (h : tryAt re rest = some r) : find re (pre ++ rest) = some r := by
  induction pre with
  | nil =>
    cases rest with
    | nil => simpa [find] using h
    | cons x t => simp [find, h]
  | cons x t ih =>
    have h0 : tryAt re (x :: (t ++ rest)) = none := hpre [] (x :: t) rfl (by simp)
    have h1 : find re (x :: (t ++ rest)) = find re (t ++ rest) := by
      simp only [find, h0]
    rw [List.cons_append, h1]
    exact ih (fun a b hab hb => hpre (x :: a) b (by simp [hab]) hb)

/-! ## Completeness of the matcher -/

lemma one_blind (p : Char → Bool) {k : Cont} (hk : Blind k) (s : List Char) (c e : Caps) :
    (one p s c k).isSome = (one p s e k).isSome := by
  cases s with
  | nil => rfl
  | cons x t =>
    simp only [one]
    split
    · exact hk _ _ _
    · rfl

lemma loop_blind {step : List Char → Caps → Cont → Option Caps}
    (hs : ∀ k, Blind k → ∀ s c e, (step s c k).isSome = (step s e k).isSome)
    (g : Bool) {k : Cont} (hk : Blind k) (n : Nat) :
    Blind (fun s c => loop step g n s c k) := by
  induction n with
  | zero => exact fun s c e => hk s c e
  | succ n ih =>
    intro s c e
    have hcont : Blind (fun t d => if t.length < s.length then loop step g n t d k else none) := by
      intro t d d2
      simp only
      split
      · exact ih t d d2
      · rfl
    have h1 := hs _ hcont s c e
    have h2 := hk s c e
    simp only [loop]
    cases g with
    | true =>
      simp only [if_true]
      split <;> split <;> simp_all
    | false =>
      simp only [Bool.false_eq_true, if_false]
      split <;> split <;> simp_all

theorem backtrack_blind (re : Regex) :
    ∀ k, Blind k → ∀ s c e, (backtrack re s c k).isSome = (backtrack re s e k).isSome := by
  induction re with
  | emptyMatch => exact fun k hk s c e => hk s c e
  | literal l =>
    intro k hk s c e
    simp only [backtrack]
    split
    · exact hk _ _ _
    · rfl
  | anyCharNotNL => exact fun k hk s c e => one_blind _ hk s c e
  | anyChar => exact fun k hk s c e => one_blind _ hk s c e
  | space => exact fun k hk s c e => one_blind _ hk s c e
  | word => exact fun k hk s c e => one_blind _ hk s c e
  | capture i a ih =>
    intro k hk s c e
    simp only [backtrack]
    exact ih (fun t d => k t ((i, s.take (s.length - t.length)) :: d))
      (fun t d d2 => hk _ _ _) s c e
  | star g a ih =>
    intro k hk s c e
    exact loop_blind ih g hk s.length s c e
  | plus g a ih =>
    intro k hk s c e
    exact ih _ (fun t d d2 => loop_blind ih g hk t.length t d d2) s c e
  | concat a b iha ihb =>
    intro k hk s c e
    exact iha _ (fun t d d2 => ihb k hk t d d2) s c e
  | alternate a b iha ihb =>
    intro k hk s c e
    have h1 := iha k hk s c e
    have h2 := ihb k hk s c e
    simp only [backtrack]
    split <;> split <;> simp_all

/-- The non-empty pieces of a repetition cover the same text. -/
lemma flatten_filter_nonempty (ps : List (List Char)) :
    (ps.filter (fun p => !p.isEmpty)).flatten = ps.flatten := by
  induction ps with
  | nil => rfl
  | cons p ps ih =>
    cases p with
    | nil => simpa [List.filter_cons] using ih
    | cons x p => simp [List.filter_cons, ih]

/-- Completeness of a loop over non-empty pieces. -/
lemma loop_complete {L : List Char → Prop} {step : List Char → Caps → Cont → Option Caps}
    (hs : ∀ m, L m → ∀ k, Blind k → ∀ t c d, (k t d).isSome = true →
      (step (m ++ t) c k).isSome = true)
    (hb : ∀ k, Blind k → ∀ s c e, (step s c k).isSome = (step s e k).isSome)
    (g : Bool) {k : Cont} (hk : Blind k) (ps : List (List Char))
    (hps : ∀ p ∈ ps, L p ∧ p ≠ []) (t : List Char) (d : Caps) (hkt : (k t d).isSome = true) :
    ∀ n c, (ps.flatten ++ t).length ≤ n → (loop step g n (ps.flatten ++ t) c k).isSome = true := by
  induction ps with
  | nil =>
    intro n c _
    have hc : (k t c).isSome = true := by rw [hk t c d]; exact hkt
    cases n with
    | zero => exact hc
    | succ n =>
      simp only [List.flatten_nil, List.nil_append, loop]
      cases g with
      | true =>
        simp only [if_true]
        split
        · rfl
        · exact hc
      | false =>
        simp only [Bool.false_eq_true, if_false]
        split
        · rfl
        · rename_i hnone
          rw [hnone] at hc
          cases hc
  | cons p ps ih =>
    intro n c hn
    obtain ⟨hLp, hpne⟩ := hps p (List.mem_cons_self _ _)
    have hps2 : ∀ q ∈ ps, L q ∧ q ≠ [] := fun q hq => hps q (List.mem_cons_of_mem _ hq)
    have hlen : 0 < p.length := List.length_pos.mpr hpne
    cases n with
    | zero =>
      simp only [List.flatten_cons, List.length_append] at hn
      omega
    | succ n =>
      have hstep : (step (p ++ (ps.flatten ++ t)) c
          (fun u e => if u.length < (p ++ (ps.flatten ++ t)).length
            then loop step g n u e k else none)).isSome = true := by
        apply hs p hLp _ _ _ c c
        · have hlt : (ps.flatten ++ t).length < (p ++ (ps.flatten ++ t)).length := by
            rw [List.length_append p]; omega
          simp only [hlt, if_true]
          apply ih hps2
          simp only [List.flatten_cons, List.append_assoc, List.length_append] at hn ⊢
          omega
        · intro u e1 e2
          simp only
          split
          · exact loop_blind hb g hk n u e1 e2
          · rfl
      simp only [List.flatten_cons, List.append_assoc, loop]
      cases g with
      | true =>
        simp only [if_true]
        split
        · rfl
        · rename_i hnone
          rw [hnone] at hstep
          cases hstep
      | false =>
        simp only [Bool.false_eq_true, if_false]
        split
        · rfl
        · exact hstep

/-- Completeness of the matcher for the language of the expression: when a text
of the language is followed by a rest on which the continuation succeeds, the
search succeeds. -/
theorem backtrack_complete (re : Regex) :
    ∀ m, Matches re m → ∀ k, Blind k → ∀ t c d, (k t d).isSome = true →
      (backtrack re (m ++ t) c k).isSome = true := by
  induction re with
  | emptyMatch =>
    intro m hm k hk t c d hkt
    cases hm
    rw [← hkt]
    exact hk t c d
  | literal l =>
    intro m hm k hk t c d hkt
    cases hm
    simp only [backtrack, matchLiteral_append]
    rw [← hkt]
    exact hk t c d
  | anyCharNotNL =>
    intro m hm k hk t c d hkt
    obtain ⟨x, rfl, hx⟩ := hm
    simp only [backtrack, List.singleton_append, one, hx, if_true]
    rw [← hkt]
    exact hk t c d
  | anyChar =>
    intro m hm k hk t c d hkt
    obtain ⟨x, rfl, hx⟩ := hm
    simp only [backtrack, List.singleton_append, one, hx, if_true]
    rw [← hkt]
    exact hk t c d
  | space =>
    intro m hm k hk t c d hkt
    obtain ⟨x, rfl, hx⟩ := hm
    simp only [backtrack, List.singleton_append, one, hx, if_true]
    rw [← hkt]
    exact hk t c d
  | word =>
    intro m hm k hk t c d hkt
    obtain ⟨x, rfl, hx⟩ := hm
    simp only [backtrack, List.singleton_append, one, hx, if_true]
    rw [← hkt]
    exact hk t c d
  | capture i a ih =>
    intro m hm k hk t c d hkt
    simp only [backtrack]
    refine ih m hm (fun u e => k u ((i, (m ++ t).take ((m ++ t).length - u.length)) :: e))
      (fun u e1 e2 => hk _ _ _) t c d ?_
    rw [← hkt]
    exact hk _ _ _
  | star g a ih =>
    intro m hm k hk t c d hkt
    obtain ⟨ps, rfl, hps⟩ := hm
    simp only [backtrack]
    rw [← flatten_filter_nonempty ps]
    refine loop_complete ih (backtrack_blind a) g hk _ ?_ t d hkt _ c (le_refl _)
    intro p hp
    obtain ⟨hp1, hp2⟩ := List.mem_filter.mp hp
    refine ⟨hps p hp1, ?_⟩
    intro hnil
    simp [hnil] at hp2
  | plus g a ih =>
    intro m hm k hk t c d hkt
    obtain ⟨p, ps, rfl, hp, hps⟩ := hm
    simp only [backtrack, List.append_assoc]
    refine ih p hp _ (fun u e1 e2 => loop_blind (backtrack_blind a) g hk u.length u e1 e2)
      _ c c ?_
    rw [← flatten_filter_nonempty ps]
    refine loop_complete ih (backtrack_blind a) g hk _ ?_ t d hkt _ c (le_refl _)
    intro q hq
    obtain ⟨hq1, hq2⟩ := List.mem_filter.mp hq
    refine ⟨hps q hq1, ?_⟩
    intro hnil
    simp [hnil] at hq2
  | concat a b iha ihb =>
    intro m hm k hk t c d hkt
    obtain ⟨m1, m2, rfl, h1, h2⟩ := hm
    simp only [backtrack, List.append_assoc]
    exact iha m1 h1 _ (fun u e1 e2 => backtrack_blind b k hk u e1 e2) _ c c
      (ihb m2 h2 k hk t c d hkt)
  | alternate a b iha ihb =>
    intro m hm k hk t c d hkt
    simp only [backtrack]
    split
    · rfl
    · rename_i hnone
      rcases hm with hm | hm
      · have := iha m hm k hk t c d hkt
        rw [hnone] at this
        cases this
      · exact ihb m hm k hk t c d hkt

/-- The model of `MatchString` decides whether some substring of the input is
in the language of the expression. -/
theorem MatchString_iff (re : Regex) (s : String) :
    MatchString re s = true ↔ ∃ pre m post, s.data = pre ++ m ++ post ∧ Matches re m := by
  unfold MatchString
  constructor
  · intro h
    obtain ⟨r, hr⟩ := Option.isSome_iff_exists.mp h
    obtain ⟨pre, rest, hs, ht⟩ := find_some hr
    obtain ⟨m, post, d, rfl, hm, -⟩ := backtrack_sound re _ _ _ _ ht
    exact ⟨pre, m, post, by rw [hs, List.append_assoc], hm⟩
  · rintro ⟨pre, m, post, hs, hm⟩
    rw [hs, List.append_assoc]
    apply find_isSome_of_tryAt
    unfold tryAt
    exact backtrack_complete re m hm
      (fun t d => some ((0, (m ++ post).take ((m ++ post).length - t.length)) :: d))
      (fun _ _ _ => rfl) post [] [] rfl

/-! ## The shape of a match of the kind pattern -/

lemma backtrack_concat (a b : Regex) (s : List Char) (c : Caps) (k : Cont) :
    backtrack (.concat a b) s c k = backtrack a s c (fun t d => backtrack b t d k) := rfl

lemma backtrack_capture (i : Nat) (a : Regex) (s : List Char) (c : Caps) (k : Cont) :
    backtrack (.capture i a) s c k
      = backtrack a s c (fun t d => k t ((i, s.take (s.length - t.length)) :: d)) := rfl

lemma backtrack_literal_some {l : String} {s : List Char} {c r : Caps} {k : Cont}
    (h : backtrack (.literal l) s c k = some r) : ∃ t, s = l.data ++ t ∧ k t c = some r := by
  simp only [backtrack] at h
  split at h
  · rename_i t ht
    exact ⟨t, matchLiteral_some ht, h⟩
  · simp at h

/-- A repetition `x+` of a one-rune class is a non-empty run of runes of the class. -/
lemma matches_plus_class {a : Regex} {q : Char → Bool}
    (ha : ∀ p, Matches a p → ∃ x, p = [x] ∧ q x = true) {g : Bool} {m : List Char}
    (h : Matches (.plus g a) m) : m ≠ [] ∧ ∀ x ∈ m, q x = true := by
  obtain ⟨p, ps, rfl, hp, hps⟩ := h
  obtain ⟨x, rfl, hx⟩ := ha p hp
  refine ⟨by simp, ?_⟩
  intro y hy
  simp only [List.singleton_append, List.mem_cons, List.mem_flatten] at hy
  rcases hy with rfl | ⟨l, hl, hy⟩
  · exact hx
  · obtain ⟨z, rfl, hz⟩ := ha l (hps l hl)
    simp only [List.mem_singleton] at hy
    rw [hy]; exact hz

lemma matches_plus_word {g : Bool} {m : List Char} (h : Matches (.plus g .word) m) :
    m ≠ [] ∧ ∀ x ∈ m, isWord x = true :=
  @matches_plus_class Regex.word isWord (fun _ hp => hp) g m h

lemma matches_plus_space {g : Bool} {m : List Char} (h : Matches (.plus g .space) m) :
    m ≠ [] ∧ ∀ x ∈ m, isSpace x = true :=
  @matches_plus_class Regex.space isSpace (fun _ hp => hp) g m h

/-- The text of group 1 of the kind pattern: word and space runes only, the
last one a word rune. -/
lemma matches_kindGroup {m : List Char} (h : Matches kindGroup m) :
    (∀ x ∈ m, isWord x = true ∨ isSpace x = true) ∧
      ∃ init w, m = init ++ [w] ∧ isWord w = true := by
  have last : ∀ {u : List Char}, u ≠ [] → (∀ x ∈ u, isWord x = true) →
      ∃ init w, u = init ++ [w] ∧ isWord w = true := by
    intro u hu hw
    exact ⟨u.dropLast, u.getLast hu, (List.dropLast_append_getLast hu).symm,
      hw _ (List.getLast_mem hu)⟩
  rcases h with h | ⟨m1, m23, rfl, h1, m2, m3, rfl, h2, h3⟩
  · obtain ⟨hne, hw⟩ := matches_plus_word h
    exact ⟨fun x hx => Or.inl (hw x hx), last hne hw⟩
  · obtain ⟨-, hw1⟩ := matches_plus_word h1
    obtain ⟨-, hs2⟩ := matches_plus_space h2
    obtain ⟨hne3, hw3⟩ := matches_plus_word h3
    constructor
    · intro x hx
      simp only [List.mem_append] at hx
      rcases hx with hx | hx | hx
      · exact Or.inl (hw1 x hx)
      · exact Or.inr (hs2 x hx)
      · exact Or.inl (hw3 x hx)
    · obtain ⟨init, w, rfl, hw⟩ := last hne3 hw3
      exact ⟨m1 ++ (m2 ++ init), w, by simp, hw⟩

/-- A match of the kind pattern at the head of the input: the prompt, any text,
a colon, any text, the text of group 1, CR LF. -/
lemma kind_tryAt_shape {b : List Char} {r : Caps} (h : tryAt kindpattern b = some r) :
    ∃ x y m z, b = kindPrompt.data ++ x ++ ':' :: y ++ m ++ '\r' :: '\n' :: z
      ∧ Matches kindGroup m ∧ r.lookup 1 = some m := by
  unfold tryAt kindpattern at h
  rw [backtrack_concat] at h
  obtain ⟨t1, e1, h1⟩ := backtrack_literal_some h
  rw [backtrack_concat] at h1
  obtain ⟨x, t2, d2, e2, -, h2⟩ := backtrack_sound _ _ _ _ _ h1
  simp only [backtrack_concat] at h2
  obtain ⟨t3, e3, h3⟩ := backtrack_literal_some h2
  obtain ⟨y, t4, d4, e4, -, h4⟩ := backtrack_sound _ _ _ _ _ h3
  simp only [backtrack_capture] at h4
  obtain ⟨m, t5, d5, e5, hm, h5⟩ := backtrack_sound _ _ _ _ _ h4
  obtain ⟨z, e6, h6⟩ := backtrack_literal_some h5
  refine ⟨x, y, m, z, ?_, hm, ?_⟩
  · rw [e1, e2, e3, e4, e5, e6]; simp
  · simp only [Option.some.injEq] at h6
    rw [← h6, e5]
    simp [List.lookup]

lemma kindpattern_NumSubexp : kindpattern.NumSubexp = 1 := by decide

lemma findStringSubmatch_kind_none {body : String} (h : find kindpattern body.data = none) :
    FindStringSubmatch kindpattern body = [] := by
  simp [FindStringSubmatch, h]

lemma findStringSubmatch_kind_some {body : String} {r : Caps}
    (h : find kindpattern body.data = some r) :
    FindStringSubmatch kindpattern body
      = [String.mk ((r.lookup 0).getD []), String.mk ((r.lookup 1).getD [])] := by
  simp [FindStringSubmatch, h, kindpattern_NumSubexp, List.range_succ]

lemma kindLabels_of_find_none {body : String} (h : find kindpattern body.data = none) :
    kindLabels body = [] := by
  simp [kindLabels, findStringSubmatch_kind_none h]

lemma kindLabels_of_find_some {body : String} {r : Caps}
    (h : find kindpattern body.data = some r) :
    kindLabels body =
      match kinds.lookup (ToLower (String.mk ((r.lookup 1).getD []))) with
      | some val => [val]
      | none => [] := by
  simp [kindLabels, findStringSubmatch_kind_some h]

/-! ## Evaluations on the scenario bodies -/

lemma rangeOrder_source : RangeOrder versionregexes := List.Perm.refl _

lemma rangeOrder_reverse : RangeOrder versionregexes.reverse := List.reverse_perm _

lemma scenario_no_version : ∀ e ∈ versionregexes, MatchString e.1 scenarioBody = false := by
  decide

lemma scenario_kind : kindLabels scenarioBody = ["kind/bug"] := by decide

lemma empty_no_version : ∀ e ∈ versionregexes, MatchString e.1 "" = false := by decide

lemma empty_no_kind : MatchString kindpattern "" = false := by decide

lemma rancher2_tryAt (post : List Char) :
    (tryAt reServer2 ("rancher2".data ++ post)).isSome = true := by
  simp [tryAt, reServer2, colonGroup, spacesGroup, vGroup, backtrack, matchLiteral, one, loop,
    isSpace]

lemma rancher2_matches (pre post : String) :
    MatchString reServer2 (pre ++ "rancher2" ++ post) = true := by
  unfold MatchString
  rw [String.data_append, String.data_append, List.append_assoc]
  exact find_isSome_of_tryAt pre.data (rancher2_tryAt post.data)

lemma count_labels (L : String) (p : Regex × String → Bool) (l : List (Regex × String)) :
    ((l.filter p).map Prod.snd).count L
      = ((l.filter (fun e => e.2 == L)).filter p).length := by
  induction l with
  | nil => rfl
  | cons e rest ih =>
    by_cases hp : p e = true <;> by_cases hl : e.2 = L <;>
      simp [List.filter_cons, hp, hl, ih, List.count_cons]

/-- The prompt answered with `bug` on the same line, CR LF after it. -/
lemma bugLine_tryAt (post : List Char) :
    ∃ r, tryAt kindpattern (bugLine.data ++ post) = some r ∧ r.lookup 1 = some "bug".data := by
  simp [tryAt, kindpattern, kindPrompt, kindGroup, bugLine, backtrack, matchLiteral, one, loop,
    isWord, isSpace, anyRune, List.lookup]

/-- When no match starts in `pre`, the search finds the match that starts right
after it. -/
lemma find_after {re : Regex} (pre : List Char) {rest : List Char} {r : Caps}
    (hpre : ∀ i, i < pre.length → tryAt re ((pre ++ rest).drop i) = none)
    (h : tryAt re rest = some r) : find re (pre ++ rest) = some r := by
  apply find_eq_of_leftmost pre _ h
  intro a b hab hb
  have hi : a.length < pre.length := by
    rw [hab, List.length_append]
    have : 0 < b.length := List.length_pos.mpr hb
    omega
  have := hpre a.length hi
  rwa [hab, List.append_assoc, List.drop_left] at this

/-- The text of group 1 of the kind pattern is made of `\w` and `\s` runes, so
it is ASCII and `ToLower` is exact on it. -/
lemma capture_ascii {body whole capture : String}
    (h : FindStringSubmatch kindpattern body = [whole, capture]) :
    ∀ x ∈ capture.data, (isWord x = true ∨ isSpace x = true) ∧ x.toNat < 128 := by
  cases hf : find kindpattern body.data with
  | none => simp [findStringSubmatch_kind_none hf] at h
  | some r =>
    rw [findStringSubmatch_kind_some hf] at h
    obtain ⟨pre, rest, -, hr⟩ := find_some hf
    obtain ⟨x, y, m, z, -, hm, hl⟩ := kind_tryAt_shape hr
    simp only [hl, Option.getD_some, List.cons.injEq, and_true] at h
    obtain ⟨-, rfl⟩ := h
    intro c hc
    have hws := (matches_kindGroup hm).1 c hc
    refine ⟨hws, ?_⟩
    rcases hws with hw | hs
    · simp only [isWord, Bool.or_eq_true, Bool.and_eq_true, decide_eq_true_eq, beq_iff_eq] at hw
      rcases hw with ((⟨-, h2⟩ | ⟨-, h2⟩) | rfl) | ⟨-, h2⟩
      · exact lt_of_le_of_lt (show c.toNat ≤ 57 from h2) (by norm_num)
      · exact lt_of_le_of_lt (show c.toNat ≤ 90 from h2) (by norm_num)
      · decide
      · exact lt_of_le_of_lt (show c.toNat ≤ 122 from h2) (by norm_num)
    · simp only [isSpace, Bool.or_eq_true, beq_iff_eq] at hs
      rcases hs with (((rfl | rfl) | rfl) | rfl) | rfl <;> decide

/-! ## Properties of the handler -/

/-- C1, as stated, fails: for the scenario body the labels built by the
classification block, read as a set, are not `version/1.6` and `kind/bug`. -/
theorem C1_scenario_set_refuted :
    ¬ (∀ l : String, l ∈ labelsToApply versionregexes scenarioBody
        ↔ (l = "version/1.6" ∨ l = "kind/bug")) := by
  intro h
  have h1 : "version/1.6" ∈ labelsToApply versionregexes scenarioBody :=
    (h "version/1.6").mpr (Or.inl rfl)
  revert h1
  decide

/-- C1, amended: for the scenario body and every order of the walk over the
version map, the label sequence is exactly `kind/bug`.  None of the six version
patterns matches, as no substring of the body is in the language of one: in
`Rancher\sversion.+:` the `.+` needs at least one rune between `version` and
the colon, and the body has none. -/
theorem C1_scenario_labels (order : List (Regex × String)) (h : RangeOrder order) :
    labelsToApply order scenarioBody = ["kind/bug"]
      ∧ (∀ l : String, l ∈ labelsToApply order scenarioBody ↔ l = "kind/bug")
      ∧ (∀ e ∈ versionregexes, MatchString e.1 scenarioBody = false)
      ∧ (∀ e ∈ versionregexes,
          ¬ ∃ pre m post, scenarioBody.data = pre ++ m ++ post ∧ Matches e.1 m) := by
  have hv : versionLabels order scenarioBody = [] :=
    versionLabels_nil_of_no_match h scenario_no_version
  have hl : labelsToApply order scenarioBody = ["kind/bug"] := by
    simp [labelsToApply, hv, scenario_kind]
  refine ⟨hl, by simp [hl], scenario_no_version, ?_⟩
  intro e he hex
  have := (MatchString_iff e.1 scenarioBody).mpr hex
  rw [scenario_no_version e he] at this
  cases this

/-- Witness of C1, amended: the walk in the order of the source text. -/
theorem C1_scenario_labels_witness :
    RangeOrder versionregexes
      ∧ labelsToApply versionregexes scenarioBody = ["kind/bug"] :=
  ⟨rangeOrder_source, (C1_scenario_labels versionregexes rangeOrder_source).1⟩

/-- C3: every body that contains `rancher2` gets the label `version/2.0`,
whatever the order of the walk; the body `rancher2 cluster fails to start` gets
exactly that label. -/
theorem C3_rancher2_version2 (order : List (Regex × String)) (h : RangeOrder order)
    (pre post : String) :
    "version/2.0" ∈ labelsToApply order (pre ++ "rancher2" ++ post)
      ∧ labelsToApply order "rancher2 cluster fails to start" = ["version/2.0"] := by
  constructor
  · apply List.mem_append_left
    refine mem_versionLabels.mpr ⟨(reServer2, "version/2.0"), ?_, rancher2_matches pre post, rfl⟩
    exact h.mem_iff.mpr (by simp [versionregexes])
  · have hk : kindLabels "rancher2 cluster fails to start" = [] := by decide
    have hone : ∀ e ∈ versionregexes,
        MatchString e.1 "rancher2 cluster fails to start" = true → e.2 = "version/2.0" := by
      decide
    have hlen : (versionLabels versionregexes "rancher2 cluster fails to start").length = 1 := by
      decide
    rw [labelsToApply, hk, versionLabels_replicate h hone, hlen]
    rfl

/-- Witness of C3: the source order, with text on both sides of `rancher2`. -/
theorem C3_rancher2_version2_witness :
    RangeOrder versionregexes
      ∧ "version/2.0" ∈ labelsToApply versionregexes ("my " ++ "rancher2" ++ " cluster") :=
  ⟨rangeOrder_source, (C3_rancher2_version2 versionregexes rangeOrder_source "my " " cluster").1⟩

/-- C4: the handler calls `AddLabelsToIssue` if and only if the payload is an
issues payload with action `opened` and no labels; the call then carries the
issue number of the event and the classification of the issue body, unchanged
(the empty list included); for another action or a labelled issue it leaves
before the classification block. -/
theorem C4_handler_guard (org repo : String) (order : List (Regex × String))
    (payload : Payload) (call : AddLabelsCall) :
    (handler org repo order payload = some call ↔
      ∃ p, payload = Payload.issues p ∧ p.Action = "opened" ∧ p.Issue.Labels.length = 0
        ∧ call = ⟨org, repo, p.Issue.Number, labelsToApply order p.Issue.Body⟩)
    ∧ (∀ p, payload = Payload.issues p → p.Action ≠ "opened" →
        handler org repo order payload = none)
    ∧ (∀ p, payload = Payload.issues p → p.Issue.Labels ≠ [] →
        handler org repo order payload = none)
    ∧ handler org repo order Payload.nil = none
    ∧ handler org repo order Payload.other = none := by
  refine ⟨?_, ?_, ?_, rfl, rfl⟩
  · cases payload with
    | nil => simp [handler]
    | other => simp [handler]
    | issues p =>
      constructor
      · intro hc
        simp only [handler] at hc
        split at hc
        · cases hc
        · split at hc
          · cases hc
          · rename_i ha hl
            refine ⟨p, rfl, by simpa using ha, by simpa using hl, ?_⟩
            exact (Option.some.inj hc).symm
      · rintro ⟨q, hq, ha, hl, rfl⟩
        cases hq
        simp [handler, ha, hl]
  · rintro p rfl ha
    simp [handler, ha]
  · rintro p rfl hl
    simp [handler, hl]

/-- C5, as stated, fails: two walks over the same version map, in the source
order and in the reverse order, build different sequences for one body. -/
theorem C5_order_changes_sequence :
    RangeOrder versionregexes ∧ RangeOrder versionregexes.reverse
      ∧ labelsToApply versionregexes bothVersionsBody = ["version/1.6", "version/2.0"]
      ∧ labelsToApply versionregexes.reverse bothVersionsBody = ["version/2.0", "version/1.6"]
      ∧ labelsToApply versionregexes bothVersionsBody
          ≠ labelsToApply versionregexes.reverse bothVersionsBody :=
  ⟨rangeOrder_source, rangeOrder_reverse, by decide, by decide, by decide⟩

/-- C5, amended: two classifications of one body are equal element by element
when both walks meet the matching version entries in the same order (the same
walk order is a case of this), and also when all the matching version patterns
carry one label.  In every case each result is its version labels, none of them
a kind label, followed by the same kind labels, at most one; the version labels
of the two results agree up to order; and a kind label found in one result is
the last element of both. -/
theorem C5_same_body_twice (body : String) (o1 o2 : List (Regex × String))
    (h1 : RangeOrder o1) (h2 : RangeOrder o2) :
    (o1.filter (fun e => MatchString e.1 body) = o2.filter (fun e => MatchString e.1 body) →
        labelsToApply o1 body = labelsToApply o2 body)
    ∧ (((∀ e ∈ versionregexes, MatchString e.1 body = true → e.2 = "version/1.6")
        ∨ (∀ e ∈ versionregexes, MatchString e.1 body = true → e.2 = "version/2.0")) →
        labelsToApply o1 body = labelsToApply o2 body)
    ∧ (∃ v1 v2 k, labelsToApply o1 body = v1 ++ k ∧ labelsToApply o2 body = v2 ++ k
        ∧ v1.Perm v2 ∧ k.length ≤ 1
        ∧ (∀ l ∈ v1, isKindLabel l = false) ∧ (∀ l ∈ v2, isKindLabel l = false)
        ∧ (∀ l ∈ k, isKindLabel l = true))
    ∧ (∀ l, isKindLabel l = true → l ∈ labelsToApply o1 body →
        (labelsToApply o1 body).getLast? = some l ∧ (labelsToApply o2 body).getLast? = some l)
    ∧ (labelsToApply o1 body).filter isKindLabel = (labelsToApply o2 body).filter isKindLabel
    ∧ (labelsToApply o1 body).length = (labelsToApply o2 body).length := by
  have hperm : (versionLabels o1 body).Perm (versionLabels o2 body) :=
    (versionLabels_perm h1 body).trans (versionLabels_perm h2 body).symm
  have hv1 : ∀ l ∈ versionLabels o1 body, isKindLabel l = false :=
    fun l hl => versionLabels_not_kind h1 hl
  have hv2 : ∀ l ∈ versionLabels o2 body, isKindLabel l = false :=
    fun l hl => versionLabels_not_kind h2 hl
  have hk : ∀ l ∈ kindLabels body, isKindLabel l = true :=
    fun l hl => kindLabels_isKind body hl
  have hf : ∀ o : List (Regex × String), RangeOrder o →
      (labelsToApply o body).filter isKindLabel = kindLabels body := by
    intro o ho
    have e1 : (versionLabels o body).filter isKindLabel = [] := by
      rw [List.filter_eq_nil_iff]
      intro l hl
      rw [versionLabels_not_kind ho hl]
      exact Bool.false_ne_true
    have e2 : (kindLabels body).filter isKindLabel = kindLabels body :=
      List.filter_eq_self.mpr hk
    rw [labelsToApply, List.filter_append, e1, e2, List.nil_append]
  refine ⟨?_, ?_, ?_, ?_, ?_, ?_⟩
  · intro e
    rw [labelsToApply, labelsToApply, versionLabels_eq, versionLabels_eq, e]
  · rintro (hL | hL)
    · rw [labelsToApply, labelsToApply, versionLabels_replicate h1 hL,
        versionLabels_replicate h2 hL]
    · rw [labelsToApply, labelsToApply, versionLabels_replicate h1 hL,
        versionLabels_replicate h2 hL]
  · refine ⟨versionLabels o1 body, versionLabels o2 body, kindLabels body, rfl, rfl,
      hperm, ?_, hv1, hv2, hk⟩
    rcases kindLabels_cases body with hk0 | ⟨val, hk0, -⟩ <;> simp [hk0]
  · intro l hl hmem
    have hlk : l ∈ kindLabels body := by
      rcases List.mem_append.mp hmem with hv | hkl
      · rw [hv1 l hv] at hl
        cases hl
      · exact hkl
    rcases kindLabels_cases body with hk0 | ⟨val, hk0, -⟩
    · rw [hk0] at hlk
      cases hlk
    · rw [hk0] at hlk
      have hlv : l = val := List.mem_singleton.mp hlk
      subst hlv
      constructor
      · rw [labelsToApply, hk0]
        exact List.getLast?_concat _
      · rw [labelsToApply, hk0]
        exact List.getLast?_concat _
  · rw [hf o1 h1, hf o2 h2]
  · rw [labelsToApply, labelsToApply, List.length_append, List.length_append, hperm.length_eq]

/-- Witness of C5, amended: the source order and its reverse, on a body with a
version label of each kind and a kind label. -/
theorem C5_same_body_twice_witness :
    RangeOrder versionregexes ∧ RangeOrder versionregexes.reverse
      ∧ (∃ v1 v2 k, labelsToApply versionregexes twiceBody = v1 ++ k
        ∧ labelsToApply versionregexes.reverse twiceBody = v2 ++ k
        ∧ v1.Perm v2 ∧ k.length ≤ 1
        ∧ (∀ l ∈ v1, isKindLabel l = false) ∧ (∀ l ∈ v2, isKindLabel l = false)
        ∧ (∀ l ∈ k, isKindLabel l = true))
      ∧ labelsToApply versionregexes twiceBody = ["version/1.6", "version/2.0", "kind/bug"]
      ∧ labelsToApply versionregexes.reverse twiceBody
          = ["version/2.0", "version/1.6", "kind/bug"] :=
  ⟨rangeOrder_source, rangeOrder_reverse,
    (C5_same_body_twice twiceBody versionregexes versionregexes.reverse
      rangeOrder_source rangeOrder_reverse).2.2.1, by decide, by decide⟩

/-- C6: for each of the two version labels, its number of occurrences in the
result is the number of patterns mapped to it (three each) that match the body;
nothing is deduplicated, and a body no version pattern matches gets no version
label. -/
theorem C6_version_label_count (order : List (Regex × String)) (h : RangeOrder order)
    (body L : String) (hL : L = "version/1.6" ∨ L = "version/2.0") :
    (labelsToApply order body).count L
        = ((versionregexes.filter (fun e => e.2 == L)).filter
            (fun e => MatchString e.1 body)).length
    ∧ (versionregexes.filter (fun e => e.2 == L)).length = 3
    ∧ ((∀ e ∈ versionregexes, MatchString e.1 body = false) →
        "version/1.6" ∉ labelsToApply order body ∧ "version/2.0" ∉ labelsToApply order body) := by
  have hk : (kindLabels body).count L = 0 := by
    rw [List.count_eq_zero]
    intro hmem
    have := kindLabels_not_version body hmem
    rcases hL with rfl | rfl
    · exact this.1 rfl
    · exact this.2 rfl
  refine ⟨?_, ?_, ?_⟩
  · rw [labelsToApply, List.count_append, hk, Nat.add_zero,
      (versionLabels_perm h body).count_eq, versionLabels_eq, count_labels]
  · rcases hL with rfl | rfl <;> decide
  · intro hno
    have hv : versionLabels order body = [] := versionLabels_nil_of_no_match h hno
    simp only [labelsToApply, hv, List.nil_append]
    exact ⟨fun hm => (kindLabels_not_version body hm).1 rfl,
      fun hm => (kindLabels_not_version body hm).2 rfl⟩

/-- Witness of C6: the reverse order, a body that two of the patterns mapped to
`version/1.6` match; the label occurs twice. -/
theorem C6_version_label_count_witness :
    RangeOrder versionregexes.reverse
      ∧ ("version/1.6" = "version/1.6" ∨ "version/1.6" = "version/2.0")
      ∧ (labelsToApply versionregexes.reverse
          "rancher/server:v1 Rancher version x: v1").count "version/1.6"
        = ((versionregexes.filter (fun e => e.2 == "version/1.6")).filter
            (fun e => MatchString e.1 "rancher/server:v1 Rancher version x: v1")).length
      ∧ labelsToApply versionregexes.reverse "rancher/server:v1 Rancher version x: v1"
        = ["version/1.6", "version/1.6"] :=
  ⟨rangeOrder_reverse, Or.inl rfl,
    (C6_version_label_count versionregexes.reverse rangeOrder_reverse
      "rancher/server:v1 Rancher version x: v1" "version/1.6" (Or.inl rfl)).1, by decide⟩

/-- C8: for every body and any two orders of the walk over the version map,
the two results are permutations of one another: the same labels with the same
multiplicities, hence the same set. -/
theorem C8_order_permutes_result (body : String) (o1 o2 : List (Regex × String))
    (h1 : RangeOrder o1) (h2 : RangeOrder o2) :
    (labelsToApply o1 body).Perm (labelsToApply o2 body)
      ∧ (∀ l, (labelsToApply o1 body).count l = (labelsToApply o2 body).count l)
      ∧ (∀ l, l ∈ labelsToApply o1 body ↔ l ∈ labelsToApply o2 body) := by
  have hp : (labelsToApply o1 body).Perm (labelsToApply o2 body) :=
    ((versionLabels_perm h1 body).trans (versionLabels_perm h2 body).symm).append_right _
  exact ⟨hp, fun l => hp.count_eq l, fun l => hp.mem_iff⟩

/-- Witness of C8: the reverse order against the source order. -/
theorem C8_order_permutes_result_witness :
    RangeOrder versionregexes.reverse ∧ RangeOrder versionregexes
      ∧ (labelsToApply versionregexes.reverse bothVersionsBody).Perm
          (labelsToApply versionregexes bothVersionsBody) :=
  ⟨rangeOrder_reverse, rangeOrder_source,
    (C8_order_permutes_result bothVersionsBody versionregexes.reverse versionregexes
      rangeOrder_reverse rangeOrder_source).1⟩

/-- C9: the empty body gets the empty label sequence, in every order of the
walk: none of the six version patterns and not the kind pattern matches it. -/
theorem C9_empty_body (order : List (Regex × String)) (h : RangeOrder order) :
    labelsToApply order "" = []
      ∧ (∀ e ∈ versionregexes, MatchString e.1 "" = false)
      ∧ MatchString kindpattern "" = false := by
  refine ⟨?_, empty_no_version, empty_no_kind⟩
  have hk : kindLabels "" = [] := by decide
  rw [labelsToApply, versionLabels_nil_of_no_match h empty_no_version, hk]
  rfl

/-- Witness of C9: the source order. -/
theorem C9_empty_body_witness :
    RangeOrder versionregexes ∧ labelsToApply versionregexes "" = [] :=
  ⟨rangeOrder_source, (C9_empty_body versionregexes rangeOrder_source).1⟩

/-- C2, as stated, fails: a body that contains the line `What kind of request
is this: bug` after an earlier prompt answered `other` gets no `kind/bug`; the
kind lookup reads the leftmost match only. -/
theorem C2_earlier_prompt_hides_bug :
    "kind/bug" ∉ labelsToApply versionregexes
      ("What kind of request is this: other\r\n" ++ "What kind of request is this: bug\r\n" ++ "")
    ∧ FindStringSubmatch kindpattern
        ("What kind of request is this: other\r\n" ++ "What kind of request is this: bug\r\n" ++ "")
      = ["What kind of request is this: other\r\n", "other"] := by
  decide

/-- C2, amended: a body that contains the line `What kind of request is this:
bug` followed by CR LF gets `kind/bug` when no match of the kind pattern starts
to the left of that line. -/
theorem C2_leftmost_bug_line (order : List (Regex × String)) (pre post : String)
    (hleft : ∀ i, i < pre.length →
      tryAt kindpattern ((pre ++ "What kind of request is this: bug\r\n" ++ post).data.drop i)
        = none) :
    "kind/bug" ∈ labelsToApply order (pre ++ "What kind of request is this: bug\r\n" ++ post) := by
  apply List.mem_append_right
  obtain ⟨r, hr, hcap⟩ := bugLine_tryAt post.data
  have hfind : find kindpattern
      (pre ++ "What kind of request is this: bug\r\n" ++ post).data = some r := by
    rw [String.data_append, String.data_append, List.append_assoc]
    apply find_after pre.data _ hr
    intro i hi
    have := hleft i hi
    rwa [String.data_append, String.data_append, List.append_assoc] at this
  rw [kindLabels_of_find_some hfind, hcap]
  decide

/-- Witness of C2, amended: text without a prompt on both sides of the line. -/
theorem C2_leftmost_bug_line_witness :
    (∀ i, i < "Hi\r\n".length →
      tryAt kindpattern
        (("Hi\r\n" ++ "What kind of request is this: bug\r\n" ++ "thanks").data.drop i) = none)
    ∧ "kind/bug" ∈ labelsToApply versionregexes
        ("Hi\r\n" ++ "What kind of request is this: bug\r\n" ++ "thanks") :=
  ⟨by decide, C2_leftmost_bug_line versionregexes "Hi\r\n" "thanks" (by decide)⟩

/-- C7: the kind lookup appends a label exactly when the kind pattern matches
and group 1, lower-cased, is a key of `kinds`; the label is the value of that
key; the keys are `question`, `bug`, `enhancement`, `feature request` and
`feature`; a capture that is no key adds nothing after the version labels. -/
theorem C7_kind_lookup (order : List (Regex × String)) (body : String) :
    (∀ val, labelsToApply order body = versionLabels order body ++ [val] ↔
      ∃ whole capture, FindStringSubmatch kindpattern body = [whole, capture]
        ∧ kinds.lookup (ToLower capture) = some val)
    ∧ ((¬ ∃ whole capture val, FindStringSubmatch kindpattern body = [whole, capture]
        ∧ kinds.lookup (ToLower capture) = some val) →
        labelsToApply order body = versionLabels order body)
    ∧ (MatchString kindpattern body = true ↔
        ∃ whole capture, FindStringSubmatch kindpattern body = [whole, capture])
    ∧ (∀ k v, kinds.lookup k = some v ↔
        (k = "question" ∧ v = "kind/question") ∨ (k = "bug" ∧ v = "kind/bug")
        ∨ (k = "enhancement" ∧ v = "kind/enhancement")
        ∨ (k = "feature request" ∧ v = "kind/feature") ∨ (k = "feature" ∧ v = "kind/feature"))
    ∧ kinds.lookup (ToLower "Bug") = some "kind/bug"
    ∧ kinds.lookup (ToLower "BUG") = some "kind/bug"
    ∧ kinds.lookup (ToLower "feature request") = some "kind/feature"
    ∧ kinds.lookup (ToLower "feature") = some "kind/feature"
    ∧ kinds.lookup (ToLower "other") = none
    ∧ FindStringSubmatch kindpattern "What kind of request is this: other\r\n"
        = ["What kind of request is this: other\r\n", "other"]
    ∧ labelsToApply versionregexes "What kind of request is this: other\r\n" = [] := by
  have key : ∀ val, kindLabels body = [val] ↔
      ∃ whole capture, FindStringSubmatch kindpattern body = [whole, capture]
        ∧ kinds.lookup (ToLower capture) = some val := by
    intro val
    cases hf : find kindpattern body.data with
    | none => simp [kindLabels_of_find_none hf, findStringSubmatch_kind_none hf]
    | some r =>
      rw [kindLabels_of_find_some hf, findStringSubmatch_kind_some hf]
      constructor
      · intro h
        refine ⟨_, _, rfl, ?_⟩
        split at h
        · rename_i v hv
          rw [hv]
          simpa using h
        · simp at h
      · rintro ⟨whole, capture, he, hk⟩
        simp only [List.cons.injEq, and_true] at he
        rw [he.2, hk]
  refine ⟨?_, ?_, ?_, ?_, by decide, by decide, by decide, by decide, by decide, by decide,
    by decide⟩
  · intro val
    rw [← key val, labelsToApply]
    exact List.append_right_inj _
  · intro hno
    rcases kindLabels_cases body with hk | ⟨val, hk, -⟩
    · simp [labelsToApply, hk]
    · obtain ⟨whole, capture, h1, h2⟩ := (key val).mp hk
      exact absurd ⟨whole, capture, val, h1, h2⟩ hno
  · unfold MatchString
    cases hf : find kindpattern body.data with
    | none => simp [findStringSubmatch_kind_none hf]
    | some r => simp [findStringSubmatch_kind_some hf]
  · intro k v
    simp only [kinds, List.lookup]
    constructor
    · intro h
      repeat (split at h; · rename_i hk; simp at hk h; simp [hk, ← h])
      simp at h
    · rintro (⟨rfl, rfl⟩ | ⟨rfl, rfl⟩ | ⟨rfl, rfl⟩ | ⟨rfl, rfl⟩ | ⟨rfl, rfl⟩) <;> decide

/-- C10: a result with a `kind/` label comes from a body that holds the prompt,
later a colon, and later a word rune directly followed by CR LF; a body without
CR LF gets no kind label; the result holds at most one kind label, after all
version labels. -/
theorem C10_kind_label_needs_crlf (order : List (Regex × String)) (h : RangeOrder order)
    (body : String) :
    (∀ l ∈ labelsToApply order body, isKindLabel l = true →
      ∃ a x y w z, body.data
          = a ++ "What kind of request is this".data ++ x ++ ':' :: y ++ w :: '\r' :: '\n' :: z
        ∧ isWord w = true)
    ∧ ((∀ a z, body.data ≠ a ++ '\r' :: '\n' :: z) →
        ∀ l ∈ labelsToApply order body, isKindLabel l = false)
    ∧ (∃ k, labelsToApply order body = versionLabels order body ++ k ∧ k.length ≤ 1
        ∧ (∀ l ∈ versionLabels order body, isKindLabel l = false)
        ∧ (∀ l ∈ k, isKindLabel l = true)) := by
  have shape : ∀ l ∈ labelsToApply order body, isKindLabel l = true →
      ∃ a x y w z, body.data
          = a ++ "What kind of request is this".data ++ x ++ ':' :: y ++ w :: '\r' :: '\n' :: z
        ∧ isWord w = true := by
    intro l hl hkind
    rcases List.mem_append.mp hl with hv | hk
    · rw [versionLabels_not_kind h hv] at hkind
      cases hkind
    · cases hf : find kindpattern body.data with
      | none => simp [kindLabels_of_find_none hf] at hk
      | some r =>
        obtain ⟨pre, rest, hb, hr⟩ := find_some hf
        obtain ⟨x, y, m, z, hrest, hm, -⟩ := kind_tryAt_shape hr
        obtain ⟨init, w, rfl, hw⟩ := (matches_kindGroup hm).2
        refine ⟨pre, x, y ++ init, w, z, ?_, hw⟩
        rw [hb, hrest]
        simp [kindPrompt]
  refine ⟨shape, ?_, ?_⟩
  · intro hno l hl
    cases hkind : isKindLabel l with
    | false => rfl
    | true =>
      obtain ⟨a, x, y, w, z, hb, -⟩ := shape l hl hkind
      exact absurd (by rw [hb]; simp) (hno (a ++ "What kind of request is this".data ++ x
        ++ ':' :: y ++ [w]) z)
  · refine ⟨kindLabels body, rfl, ?_, fun l hl => versionLabels_not_kind h hl,
      fun l hl => kindLabels_isKind body hl⟩
    rcases kindLabels_cases body with hk | ⟨val, hk, -⟩ <;> simp [hk]

/-- Witness of C10: the scenario body, walked in the source order. -/
theorem C10_kind_label_needs_crlf_witness :
    RangeOrder versionregexes
      ∧ ∃ k, labelsToApply versionregexes scenarioBody
            = versionLabels versionregexes scenarioBody ++ k ∧ k.length ≤ 1
        ∧ (∀ l ∈ versionLabels versionregexes scenarioBody, isKindLabel l = false)
        ∧ (∀ l ∈ k, isKindLabel l = true) :=
  ⟨rangeOrder_source, (C10_kind_label_needs_crlf versionregexes rangeOrder_source scenarioBody).2.2⟩

end Githubbot
